import Mathlib

/-!
Verification of the SteamWorkshopDownloader core against its specification.

The Python source is shallowly embedded: each relevant function of
`mod_manager.py`, `steamcmd_downloader.py` and `steam_api.py` is translated
into an executable Lean definition; network and subprocess effects are
injected as explicit data (the outcome of each external call is an argument).
-/

namespace SWD

/-- The `info` metadata bag of a mod record (a Python dict whose keys may be
absent, hence `Option` fields).  Mirrors the dicts stored by
`mod_manager.py` and produced by `steam_api.py`. -/
structure ModInfo where
  title : Option String := none
  app_id : Option Nat := none
  dependencies : Option (List String) := none
  description : Option String := none
  error : Option String := none
deriving DecidableEq, Repr

/-- A mod record as stored in `ModManager.mods` (`mod_manager.py`). -/
structure Mod where
  id : String
  url : String
  info : ModInfo
  is_dependency : Bool
deriving DecidableEq, Repr

/-- `mod.get('info', {}).get('dependencies', [])`. -/
def modDeps (m : Mod) : List String :=
  m.info.dependencies.getD []

/-- The dict comprehension `{mod['id']: mod for mod in self.mods}`: a later
record with the same id overwrites an earlier one, so lookup finds the last
matching record. -/
def modsDict (mods : List Mod) (x : String) : Option Mod :=
  mods.reverse.find? (fun m => m.id == x)

/-! ## `ModManager.add_mod_by_id` (mod_manager.py lines 56-76) -/

/-- In-place mutation `existing_mod["is_dependency"] = False` of the first
record matching `mod_id` (Python's `next` returns the first match). -/
def clearDepFlagFirst : List Mod → String → List Mod
  | [], _ => []
  | m :: rest, mod_id =>
    if m.id == mod_id then { m with is_dependency := false } :: rest
    else m :: clearDepFlagFirst rest mod_id

/-- The placeholder record appended by `add_mod_by_id` when the id is new. -/
def placeholderMod (mod_id : String) (is_dependency : Bool) : Mod :=
  { id := mod_id
    url := "https://steamcommunity.com/workshop/filedetails/?id=" ++ mod_id
    info := { title := some (if !is_dependency then
                 "Fetching info for " ++ mod_id ++ "..."
               else
                 "Fetching dependency " ++ mod_id ++ "...") }
    is_dependency := is_dependency }

/-- `ModManager.add_mod_by_id`: returns the updated mod list together with the
Python function's boolean result (`True` if added or updated, `False` if the
record already exists unchanged). -/
def add_mod_by_id (mods : List Mod) (mod_id : String) (is_dependency : Bool) :
    List Mod × Bool :=
  match mods.find? (fun m => m.id == mod_id) with
  | some existing =>
    if existing.is_dependency && !is_dependency then
      (clearDepFlagFirst mods mod_id, true)
    else
      (mods, false)
  | none =>
    (mods ++ [placeholderMod mod_id is_dependency], true)

/-- The three behavioural outcomes of `add_mod_by_id`, labelled by which
branch of the source executes (the spec's "added" / "changed" /
"unchanged"). -/
inductive AddOutcome where
  | added
  | changed
  | unchanged
deriving DecidableEq, Repr

/-- Which branch of `add_mod_by_id` executes on the given arguments. -/
def addOutcome (mods : List Mod) (mod_id : String) (is_dependency : Bool) :
    AddOutcome :=
  match mods.find? (fun m => m.id == mod_id) with
  | some existing =>
    if existing.is_dependency && !is_dependency then .changed else .unchanged
  | none => .added

/-! ## `ModManager.add_mod_by_url` (mod_manager.py lines 40-54) -/

/-- One attempt of the tail `.*id=(\d+)` of the URL regex starting from `cs`:
the greedy `.*` with backtracking captures the digits of the *last*
occurrence of `id=` followed by at least one digit. -/
def lastIdDigits : List Char → Option String
  | [] => none
  | c :: rest =>
    match lastIdDigits rest with
    | some s => some s
    | none =>
      if c == 'i' then
        match rest with
        | 'd' :: '=' :: tail =>
          let ds := tail.takeWhile Char.isDigit
          if ds.isEmpty then none else some (String.mk ds)
        | _ => none
      else none

/-- After the literal `steamcommunity.com/` part, match
`(?:sharedfiles|workshop)/filedetails/\?` and return the remaining input. -/
def matchMiddle (cs : List Char) : Option (List Char) :=
  if "sharedfiles/filedetails/?".toList.isPrefixOf cs then
    some (cs.drop "sharedfiles/filedetails/?".toList.length)
  else if "workshop/filedetails/?".toList.isPrefixOf cs then
    some (cs.drop "workshop/filedetails/?".toList.length)
  else
    none

/-- Model of
`re.search(r"steamcommunity\.com/(?:sharedfiles|workshop)/filedetails/\?.*id=(\d+)", url)`:
scan left to right for the first position where the whole pattern matches
(`.` does not cross a newline) and return the captured digit group. -/
def extract_workshop_id_chars : List Char → Option String
  | [] => none
  | c :: rest =>
    (if "steamcommunity.com/".toList.isPrefixOf (c :: rest) then
      match matchMiddle ((c :: rest).drop "steamcommunity.com/".toList.length) with
      | some tail => lastIdDigits (tail.takeWhile (fun ch => ch != '\n'))
      | none => none
    else none).orElse (fun _ => extract_workshop_id_chars rest)

/-- `ModManager.add_mod_by_url`: extract a numeric id from the URL; on failure
return the list unchanged and `none`; on success delegate to
`add_mod_by_id(mod_id)` (with `is_dependency = False`) and return the id. -/
def add_mod_by_url (mods : List Mod) (url : String) : List Mod × Option String :=
  match extract_workshop_id_chars url.toList with
  | none => (mods, none)
  | some mod_id => ((add_mod_by_id mods mod_id false).1, some mod_id)

/-! ### Lemmas about `add_mod_by_id` -/

theorem clearDepFlagFirst_map_id (mods : List Mod) (i : String) :
    (clearDepFlagFirst mods i).map Mod.id = mods.map Mod.id := by
  induction mods with
  | nil => rfl
  | cons m rest ih =>
    simp only [clearDepFlagFirst]
    split
    · rfl
    · simpa using ih

theorem add_spec_added (mods : List Mod) (mod_id : String) (dep : Bool)
    (h : mods.find? (fun m => m.id == mod_id) = none) :
    addOutcome mods mod_id dep = .added ∧
    add_mod_by_id mods mod_id dep = (mods ++ [placeholderMod mod_id dep], true) := by
  constructor <;> simp [addOutcome, add_mod_by_id, h]

theorem add_spec_changed (mods : List Mod) (mod_id : String) (existing : Mod)
    (h : mods.find? (fun m => m.id == mod_id) = some existing)
    (hdep : existing.is_dependency = true) :
    addOutcome mods mod_id false = .changed ∧
    add_mod_by_id mods mod_id false = (clearDepFlagFirst mods mod_id, true) := by
  constructor <;> simp [addOutcome, add_mod_by_id, h, hdep]

theorem add_spec_unchanged (mods : List Mod) (mod_id : String) (dep : Bool)
    (existing : Mod)
    (h : mods.find? (fun m => m.id == mod_id) = some existing)
    (hb : (existing.is_dependency && !dep) = false) :
    addOutcome mods mod_id dep = .unchanged ∧
    add_mod_by_id mods mod_id dep = (mods, false) := by
  constructor <;> simp [addOutcome, add_mod_by_id, h, hb]

theorem add_bool_iff (mods : List Mod) (mod_id : String) (dep : Bool) :
    ((add_mod_by_id mods mod_id dep).2 = false ↔
      addOutcome mods mod_id dep = .unchanged) := by
  unfold add_mod_by_id addOutcome
  cases hf : mods.find? (fun m => m.id == mod_id) with
  | none => simp
  | some existing =>
    by_cases hb : (existing.is_dependency && !dep) = true
    · simp [hb]
    · simp [eq_false_of_ne_true hb]

theorem add_second_call_unchanged (mods : List Mod) (mod_id : String) (dep : Bool)
    (h : mods.find? (fun m => m.id == mod_id) = none) :
    addOutcome (add_mod_by_id mods mod_id dep).1 mod_id false =
      (if dep then .changed else .unchanged) := by
  have hstep : add_mod_by_id mods mod_id dep =
      (mods ++ [placeholderMod mod_id dep], true) := (add_spec_added mods mod_id dep h).2
  have hfind : (mods ++ [placeholderMod mod_id dep]).find? (fun m => m.id == mod_id) =
      some (placeholderMod mod_id dep) := by
    rw [List.find?_append, h]
    simp [placeholderMod]
  rw [hstep]
  show addOutcome (mods ++ [placeholderMod mod_id dep]) mod_id false = _
  unfold addOutcome
  rw [hfind]
  cases dep <;> simp [placeholderMod]

theorem add_map_id (mods : List Mod) (mod_id : String) (dep : Bool) :
    (add_mod_by_id mods mod_id dep).1.map Mod.id = mods.map Mod.id ∨
    (mod_id ∉ mods.map Mod.id ∧
      (add_mod_by_id mods mod_id dep).1.map Mod.id = mods.map Mod.id ++ [mod_id]) := by
  cases hf : mods.find? (fun m => m.id == mod_id) with
  | none =>
    right
    have hnotin : ∀ m ∈ mods, ¬(m.id = mod_id) := by
      intro m hm
      have := List.find?_eq_none.mp hf m hm
      simpa using this
    have hadd := (add_spec_added mods mod_id dep hf).2
    rw [hadd]
    constructor
    · intro hmem
      rcases List.mem_map.mp hmem with ⟨m, hm, hid⟩
      exact hnotin m hm hid
    · simp [placeholderMod]
  | some existing =>
    left
    by_cases hb : (existing.is_dependency && !dep) = true
    · have hc : add_mod_by_id mods mod_id dep = (clearDepFlagFirst mods mod_id, true) := by
        simp [add_mod_by_id, hf, hb]
      rw [hc]
      exact clearDepFlagFirst_map_id mods mod_id
    · have hu : add_mod_by_id mods mod_id dep = (mods, false) := by
        simp [add_mod_by_id, hf, eq_false_of_ne_true hb]
      rw [hu]

theorem add_map_id_nodup (mods : List Mod) (mod_id : String) (dep : Bool)
    (h : (mods.map Mod.id).Nodup) :
    ((add_mod_by_id mods mod_id dep).1.map Mod.id).Nodup := by
  rcases add_map_id mods mod_id dep with heq | ⟨hnotin, heq⟩
  · rwa [heq]
  · rw [heq, List.nodup_append]
    refine ⟨h, List.nodup_singleton _, fun a ha hb => ?_⟩
    rw [List.mem_singleton] at hb
    subst hb
    exact hnotin ha

/-- C3, claim refuted at a concrete input: the call that *adds* mod "1" to an
empty repository and the call that *clears the dependency flag* of an existing
dependency-only record both return the same value `True`, so the caller cannot
distinguish "added" from "changed" from the result. -/
theorem c3_counterexample :
    addOutcome ([] : List Mod) "1" false = .added ∧
    addOutcome [placeholderMod "1" true] "1" false = .changed ∧
    (add_mod_by_id ([] : List Mod) "1" false).2 = true ∧
    (add_mod_by_id [placeholderMod "1" true] "1" false).2 = true := by
  refine ⟨rfl, ?_, rfl, ?_⟩ <;> decide

/-- C3 (amended): `add_mod_by_id` creates a placeholder and reports "added"
when the id is absent, clears the dependency flag and reports "changed" when
the existing record is dependency-only and the caller asserts non-dependency,
and otherwise leaves the repository unchanged and reports "unchanged"; two
consecutive calls with the same id and `is_dependency = False` take the
"added" then the "unchanged" branch.  However the boolean return value only
separates "unchanged" (`False`) from the other two outcomes (both `True`). -/
theorem c3_add_mod_by_id_amended :
    (∀ mods mod_id dep, mods.find? (fun m => m.id == mod_id) = none →
      addOutcome mods mod_id dep = .added ∧
      add_mod_by_id mods mod_id dep = (mods ++ [placeholderMod mod_id dep], true)) ∧
    (∀ mods mod_id existing, mods.find? (fun m => m.id == mod_id) = some existing →
      existing.is_dependency = true →
      addOutcome mods mod_id false = .changed ∧
      add_mod_by_id mods mod_id false = (clearDepFlagFirst mods mod_id, true)) ∧
    (∀ mods mod_id dep existing, mods.find? (fun m => m.id == mod_id) = some existing →
      (existing.is_dependency && !dep) = false →
      addOutcome mods mod_id dep = .unchanged ∧
      add_mod_by_id mods mod_id dep = (mods, false)) ∧
    (∀ mods mod_id, mods.find? (fun m => m.id == mod_id) = none →
      addOutcome (add_mod_by_id mods mod_id false).1 mod_id false = .unchanged) ∧
    (∀ mods mod_id dep, (add_mod_by_id mods mod_id dep).2 = false ↔
      addOutcome mods mod_id dep = .unchanged) := by
  refine ⟨add_spec_added, ?_, ?_, ?_, add_bool_iff⟩
  · intro mods mod_id existing h hdep
    exact add_spec_changed mods mod_id existing h hdep
  · intro mods mod_id dep existing h hb
    exact add_spec_unchanged mods mod_id dep existing h hb
  · intro mods mod_id h
    simpa using add_second_call_unchanged mods mod_id false h

/-- Witness for `c3_add_mod_by_id_amended` at concrete inputs. -/
theorem c3_witness :
    (addOutcome ([] : List Mod) "9" false = .added ∧
      add_mod_by_id ([] : List Mod) "9" false = ([] ++ [placeholderMod "9" false], true)) ∧
    (addOutcome [placeholderMod "9" true] "9" false = .changed ∧
      add_mod_by_id [placeholderMod "9" true] "9" false =
        (clearDepFlagFirst [placeholderMod "9" true] "9", true)) ∧
    (addOutcome [placeholderMod "9" false] "9" false = .unchanged ∧
      add_mod_by_id [placeholderMod "9" false] "9" false = ([placeholderMod "9" false], false)) ∧
    addOutcome (add_mod_by_id ([] : List Mod) "9" false).1 "9" false = .unchanged ∧
    ((add_mod_by_id ([] : List Mod) "9" false).2 = false ↔
      addOutcome ([] : List Mod) "9" false = .unchanged) :=
  ⟨c3_add_mod_by_id_amended.1 [] "9" false rfl,
   c3_add_mod_by_id_amended.2.1 [placeholderMod "9" true] "9" (placeholderMod "9" true)
     (by decide) (by decide),
   c3_add_mod_by_id_amended.2.2.1 [placeholderMod "9" false] "9" false (placeholderMod "9" false)
     (by decide) (by decide),
   c3_add_mod_by_id_amended.2.2.2.1 [] "9" rfl,
   c3_add_mod_by_id_amended.2.2.2.2 [] "9" false⟩

/-- C10: on a repository whose ids are pairwise distinct, `add_mod_by_id`
never appends a record with an id already present — it either preserves the
id sequence exactly (flag flip or no-op) or appends one fresh id — and id
uniqueness is preserved; `add_mod_by_url`, which delegates to
`add_mod_by_id`, inherits both properties. -/
theorem c10_unique_ids :
    (∀ mods mod_id dep, (mods.map Mod.id).Nodup →
      ((add_mod_by_id mods mod_id dep).1.map Mod.id).Nodup ∧
      ((add_mod_by_id mods mod_id dep).1.map Mod.id = mods.map Mod.id ∨
        (mod_id ∉ mods.map Mod.id ∧
          (add_mod_by_id mods mod_id dep).1.map Mod.id = mods.map Mod.id ++ [mod_id]))) ∧
    (∀ mods url, (mods.map Mod.id).Nodup →
      ((add_mod_by_url mods url).1.map Mod.id).Nodup ∧
      ((add_mod_by_url mods url).1.map Mod.id = mods.map Mod.id ∨
        ∃ i, i ∉ mods.map Mod.id ∧
          (add_mod_by_url mods url).1.map Mod.id = mods.map Mod.id ++ [i])) := by
  constructor
  · intro mods mod_id dep h
    exact ⟨add_map_id_nodup mods mod_id dep h, add_map_id mods mod_id dep⟩
  · intro mods url h
    unfold add_mod_by_url
    cases hx : extract_workshop_id_chars url.toList with
    | none => exact ⟨h, Or.inl rfl⟩
    | some mod_id =>
      refine ⟨add_map_id_nodup mods mod_id false h, ?_⟩
      rcases add_map_id mods mod_id false with heq | ⟨hnotin, heq⟩
      · exact Or.inl heq
      · exact Or.inr ⟨mod_id, hnotin, heq⟩

/-- Witness for `c10_unique_ids` at concrete inputs. -/
theorem c10_witness :
    (((add_mod_by_id [placeholderMod "7" false] "8" true).1.map Mod.id).Nodup ∧
      ((add_mod_by_id [placeholderMod "7" false] "8" true).1.map Mod.id =
          [placeholderMod "7" false].map Mod.id ∨
        ("8" ∉ [placeholderMod "7" false].map Mod.id ∧
          (add_mod_by_id [placeholderMod "7" false] "8" true).1.map Mod.id =
            [placeholderMod "7" false].map Mod.id ++ ["8"]))) ∧
    (((add_mod_by_url [] "https://steamcommunity.com/workshop/filedetails/?id=5").1.map
        Mod.id).Nodup ∧
      ((add_mod_by_url [] "https://steamcommunity.com/workshop/filedetails/?id=5").1.map
          Mod.id = ([] : List Mod).map Mod.id ∨
        ∃ i, i ∉ ([] : List Mod).map Mod.id ∧
          (add_mod_by_url [] "https://steamcommunity.com/workshop/filedetails/?id=5").1.map
            Mod.id = ([] : List Mod).map Mod.id ++ [i])) :=
  ⟨c10_unique_ids.1 [placeholderMod "7" false] "8" true (by decide),
   c10_unique_ids.2 [] "https://steamcommunity.com/workshop/filedetails/?id=5" (by decide)⟩

/-! ## `ModManager.get_all_dependencies_efficient` (mod_manager.py lines 147-177)

The Python loop state: `all_dependencies`, `to_process` and `processed` are
Python sets; they are modelled as duplicate-free lists built with
`List.insert` (set-`add`), and the arbitrary `set.pop()` is determinized to
popping the head of the worklist.  The `for dep_id in dependencies` body
performs two independent set-`add`s, modelled as two folds over the
dependency list. -/

structure ClosureState where
  all_dependencies : List String
  to_process : List String
  processed : List String
deriving Repr

/-- `for dep_id in dependencies: all_dependencies.add(dep_id)`. -/
def insertAll (acc : List String) (deps : List String) : List String :=
  deps.foldl (fun a d => a.insert d) acc

/-- `for dep_id in dependencies: if dep_id not in processed: to_process.add(dep_id)`. -/
def enqueueNew (processed : List String) (acc : List String) (deps : List String) :
    List String :=
  deps.foldl (fun a d => if d ∈ processed then a else a.insert d) acc

/-- One iteration of the `while to_process:` body, after popping `current`
off the worklist: skip if already processed, else mark processed, look the
record up (skip if absent) and union its direct dependencies into the result,
enqueueing those not yet processed. -/
def depStep (dict : String → Option Mod) (st : ClosureState) (current : String)
    (rest : List String) : ClosureState :=
  if current ∈ st.processed then
    { st with to_process := rest }
  else
    match dict current with
    | none =>
      { st with to_process := rest, processed := st.processed.insert current }
    | some m =>
      { all_dependencies := insertAll st.all_dependencies (modDeps m)
        to_process := enqueueNew (st.processed.insert current) rest (modDeps m)
        processed := st.processed.insert current }

/-- The `while to_process:` loop, with explicit fuel: `none` means the fuel
ran out before the worklist emptied (the claim is that enough fuel always
exists). -/
def depLoop (dict : String → Option Mod) : Nat → ClosureState → Option ClosureState
  | 0, _ => none
  | fuel + 1, st =>
    match st.to_process with
    | [] => some st
    | current :: rest => depLoop dict fuel (depStep dict st current rest)

/-- All ids the loop can ever touch: the seed ids, the stored record ids and
every id mentioned in a stored dependency list. -/
def idUniverse (mods : List Mod) (seeds : List String) : Finset String :=
  seeds.toFinset ∪ (mods.map Mod.id).toFinset ∪ (mods.flatMap modDeps).toFinset

/-- Fuel sufficient for the worklist loop (see `c4_closure_terminates`). -/
def closureFuel (mods : List Mod) (seeds : List String) : Nat :=
  ((idUniverse mods seeds).card + 1) * ((idUniverse mods seeds).card + 1)

/-- The state at loop entry: `set(mod_ids)` as the worklist, empty
`all_dependencies` and `processed`. -/
def initClosureState (seeds : List String) : ClosureState :=
  { all_dependencies := [], to_process := seeds.dedup, processed := [] }

/-- `ModManager.get_all_dependencies_efficient` as the loop run with the
sufficient fuel (the `[]` default is dead code by `c4_closure_terminates`). -/
def get_all_dependencies_efficient (mods : List Mod) (seeds : List String) :
    List String :=
  match depLoop (modsDict mods) (closureFuel mods seeds) (initClosureState seeds) with
  | some fin => fin.all_dependencies
  | none => []

/-! ### Set lemmas for the closure loop -/

theorem mem_insertAll (deps : List String) :
    ∀ acc x, x ∈ insertAll acc deps ↔ x ∈ acc ∨ x ∈ deps := by
  induction deps with
  | nil => intro acc x; simp [insertAll]
  | cons d rest ih =>
    intro acc x
    show x ∈ insertAll (acc.insert d) rest ↔ _
    rw [ih]
    simp only [List.mem_insert_iff, List.mem_cons]
    tauto

theorem nodup_insertAll (deps : List String) :
    ∀ acc, acc.Nodup → (insertAll acc deps).Nodup := by
  induction deps with
  | nil => intro acc h; exact h
  | cons d rest ih => intro acc h; exact ih _ h.insert

theorem mem_enqueueNew (processed deps : List String) :
    ∀ acc x, x ∈ enqueueNew processed acc deps ↔
      x ∈ acc ∨ (x ∈ deps ∧ x ∉ processed) := by
  induction deps with
  | nil => intro acc x; simp [enqueueNew]
  | cons d rest ih =>
    intro acc x
    show x ∈ enqueueNew processed (if d ∈ processed then acc else acc.insert d) rest ↔ _
    rw [ih]
    by_cases hd : d ∈ processed
    · rw [if_pos hd]
      constructor
      · rintro (h | h)
        · exact Or.inl h
        · exact Or.inr ⟨List.mem_cons_of_mem _ h.1, h.2⟩
      · rintro (h | ⟨hmem, hnp⟩)
        · exact Or.inl h
        · rcases List.mem_cons.mp hmem with heq | hmem2
          · rw [heq] at hnp; exact absurd hd hnp
          · exact Or.inr ⟨hmem2, hnp⟩
    · rw [if_neg hd, List.mem_insert_iff]
      constructor
      · rintro ((heq | h) | h)
        · refine Or.inr ⟨?_, ?_⟩ <;> rw [heq]
          · exact List.mem_cons_self _ _
          · exact hd
        · exact Or.inl h
        · exact Or.inr ⟨List.mem_cons_of_mem _ h.1, h.2⟩
      · rintro (h | ⟨hmem, hnp⟩)
        · exact Or.inl (Or.inr h)
        · rcases List.mem_cons.mp hmem with heq | hmem2
          · exact Or.inl (Or.inl heq)
          · exact Or.inr ⟨hmem2, hnp⟩

theorem nodup_enqueueNew (processed deps : List String) :
    ∀ acc, acc.Nodup → (enqueueNew processed acc deps).Nodup := by
  induction deps with
  | nil => intro acc h; exact h
  | cons d rest ih =>
    intro acc h
    show (enqueueNew processed (if d ∈ processed then acc else acc.insert d) rest).Nodup
    by_cases hd : d ∈ processed
    · rw [if_pos hd]; exact ih _ h
    · rw [if_neg hd]; exact ih _ h.insert

theorem nodup_length_le (l : List String) (U : Finset String) (hnd : l.Nodup)
    (hsub : ∀ x ∈ l, x ∈ U) : l.length ≤ U.card := by
  classical
  have h2 : l.toFinset ⊆ U := fun x hx => hsub x (List.mem_toFinset.mp hx)
  calc l.length = l.toFinset.card := (List.toFinset_card_of_nodup hnd).symm
    _ ≤ U.card := Finset.card_le_card h2

theorem card_sdiff_insert_succ (U : Finset String) (P : List String) (a : String)
    (haU : a ∈ U) (haP : a ∉ P) :
    (U \ (P.insert a).toFinset).card + 1 = (U \ P.toFinset).card := by
  classical
  have h1 : U \ (P.insert a).toFinset = (U \ P.toFinset).erase a := by
    ext x
    rw [List.insert_of_not_mem haP]
    simp only [List.toFinset_cons, Finset.mem_sdiff, Finset.mem_erase,
      Finset.mem_insert, List.mem_toFinset]
    tauto
  have hmem : a ∈ U \ P.toFinset :=
    Finset.mem_sdiff.mpr ⟨haU, fun h => haP (List.mem_toFinset.mp h)⟩
  rw [h1, Finset.card_erase_of_mem hmem]
  have : 0 < (U \ P.toFinset).card := Finset.card_pos.mpr ⟨a, hmem⟩
  omega

/-! ### The loop terminates with its worklist empty -/

theorem depLoop_nil (dict : String → Option Mod) (fuel : Nat) (st : ClosureState)
    (hto : st.to_process = []) : depLoop dict (fuel + 1) st = some st := by
  simp [depLoop, hto]

theorem depLoop_cons (dict : String → Option Mod) (fuel : Nat) (st : ClosureState)
    (current : String) (rest : List String) (hto : st.to_process = current :: rest) :
    depLoop dict (fuel + 1) st = depLoop dict fuel (depStep dict st current rest) := by
  simp [depLoop, hto]

/-- Any property preserved by `depStep` holds of the final state, whose
worklist is empty. -/
theorem depLoop_invariant (dict : String → Option Mod) (P : ClosureState → Prop)
    (hstep : ∀ st current rest, st.to_process = current :: rest → P st →
      P (depStep dict st current rest)) :
    ∀ fuel st fin, depLoop dict fuel st = some fin → P st →
      P fin ∧ fin.to_process = [] := by
  intro fuel
  induction fuel with
  | zero => intro st fin h hP; simp [depLoop] at h
  | succ fuel ih =>
    intro st fin h hP
    cases hto : st.to_process with
    | nil =>
      rw [depLoop_nil dict fuel st hto] at h
      injection h with h
      subst h
      exact ⟨hP, hto⟩
    | cons current rest =>
      rw [depLoop_cons dict fuel st current rest hto] at h
      exact ih _ fin h (hstep st current rest hto hP)

/-- The measure whose strict decrease drives the loop: the number of ids of
the universe not yet processed, weighted past any possible worklist length,
plus the worklist length. -/
def closureMeasure (U : Finset String) (st : ClosureState) : Nat :=
  (U \ st.processed.toFinset).card * (U.card + 1) + st.to_process.length

theorem depLoop_isSome (dict : String → Option Mod) (U : Finset String)
    (hdict : ∀ x m, dict x = some m → ∀ d ∈ modDeps m, d ∈ U) :
    ∀ fuel st, st.to_process.Nodup → (∀ x ∈ st.to_process, x ∈ U) →
      closureMeasure U st < fuel → (depLoop dict fuel st).isSome := by
  intro fuel
  induction fuel with
  | zero => intro st _ _ hm; omega
  | succ fuel ih =>
    intro st hnd htp hm
    cases hto : st.to_process with
    | nil => rw [depLoop_nil dict fuel st hto]; rfl
    | cons current rest =>
      rw [depLoop_cons dict fuel st current rest hto]
      have hcurU : current ∈ U := htp current (by rw [hto]; exact List.mem_cons_self _ _)
      have hndrest : rest.Nodup := by
        rw [hto] at hnd; exact hnd.of_cons
      have htprest : ∀ x ∈ rest, x ∈ U := fun x hx =>
        htp x (by rw [hto]; exact List.mem_cons_of_mem _ hx)
      have hlen : st.to_process.length = rest.length + 1 := by rw [hto]; rfl
      by_cases hc : current ∈ st.processed
      · have hd : depStep dict st current rest = { st with to_process := rest } := by
          unfold depStep; rw [if_pos hc]
        rw [hd]
        apply ih _ hndrest htprest
        unfold closureMeasure at hm ⊢
        simp only at hm ⊢
        omega
      · have hcard := card_sdiff_insert_succ U st.processed current hcurU hc
        have hprod : (U \ st.processed.toFinset).card * (U.card + 1) =
            (U \ (st.processed.insert current).toFinset).card * (U.card + 1) +
              (U.card + 1) := by
          rw [← hcard]; ring
        cases hdc : dict current with
        | none =>
          have hd : depStep dict st current rest =
              { st with to_process := rest, processed := st.processed.insert current } := by
            unfold depStep; rw [if_neg hc, hdc]
          rw [hd]
          apply ih _ hndrest htprest
          unfold closureMeasure at hm ⊢
          simp only at hm ⊢
          rw [hprod] at hm
          omega
        | some m =>
          have hd : depStep dict st current rest =
              { all_dependencies := insertAll st.all_dependencies (modDeps m)
                to_process := enqueueNew (st.processed.insert current) rest (modDeps m)
                processed := st.processed.insert current } := by
            unfold depStep; rw [if_neg hc, hdc]
          rw [hd]
          have hndq : (enqueueNew (st.processed.insert current) rest (modDeps m)).Nodup :=
            nodup_enqueueNew _ _ _ hndrest
          have htpq : ∀ x ∈ enqueueNew (st.processed.insert current) rest (modDeps m),
              x ∈ U := by
            intro x hx
            rcases (mem_enqueueNew _ _ _ _).mp hx with hx | hx
            · exact htprest x hx
            · exact hdict current m hdc x hx.1
          apply ih _ hndq htpq
          unfold closureMeasure at hm ⊢
          simp only at hm ⊢
          have hq : (enqueueNew (st.processed.insert current) rest (modDeps m)).length ≤
              U.card := nodup_length_le _ U hndq htpq
          rw [hprod] at hm
          omega

theorem modsDict_deps_in_universe (mods : List Mod) (seeds : List String) :
    ∀ x m, modsDict mods x = some m → ∀ d ∈ modDeps m, d ∈ idUniverse mods seeds := by
  intro x m hfind d hd
  have hm : m ∈ mods := List.mem_reverse.mp (List.mem_of_find?_eq_some hfind)
  have hflat : d ∈ mods.flatMap modDeps := List.mem_flatMap.mpr ⟨m, hm, hd⟩
  unfold idUniverse
  rw [Finset.mem_union]
  exact Or.inr (List.mem_toFinset.mpr hflat)

theorem seeds_in_universe (mods : List Mod) (seeds : List String) :
    ∀ x ∈ seeds, x ∈ idUniverse mods seeds := by
  intro x hx
  unfold idUniverse
  rw [Finset.mem_union, Finset.mem_union]
  exact Or.inl (Or.inl (List.mem_toFinset.mpr hx))

theorem closure_loop_some (mods : List Mod) (seeds : List String) :
    (depLoop (modsDict mods) (closureFuel mods seeds) (initClosureState seeds)).isSome := by
  apply depLoop_isSome (modsDict mods) (idUniverse mods seeds)
    (modsDict_deps_in_universe mods seeds)
  · exact seeds.nodup_dedup
  · intro x hx
    exact seeds_in_universe mods seeds x (List.mem_dedup.mp hx)
  · have h1 : seeds.dedup.length ≤ (idUniverse mods seeds).card :=
      nodup_length_le _ _ seeds.nodup_dedup
        (fun x hx => seeds_in_universe mods seeds x (List.mem_dedup.mp hx))
    unfold closureMeasure initClosureState closureFuel
    simp only [List.toFinset_nil, Finset.sdiff_empty]
    have h3 : ((idUniverse mods seeds).card + 1) * ((idUniverse mods seeds).card + 1) =
        (idUniverse mods seeds).card * ((idUniverse mods seeds).card + 1) +
          ((idUniverse mods seeds).card + 1) := by ring
    rw [h3]
    omega

/-- C4: for every repository state and every seed set — including cyclic
dependency graphs and dependency ids absent from the repository — the
worklist loop of `get_all_dependencies_efficient` empties its worklist and
returns within the fuel bound determined by the finite id space, because the
`processed` set only grows within that space. -/
theorem c4_closure_terminates : ∀ (mods : List Mod) (seeds : List String),
    ∃ fin, depLoop (modsDict mods) (closureFuel mods seeds) (initClosureState seeds) =
        some fin ∧
      get_all_dependencies_efficient mods seeds = fin.all_dependencies := by
  intro mods seeds
  rcases Option.isSome_iff_exists.mp (closure_loop_some mods seeds) with ⟨fin, hfin⟩
  refine ⟨fin, hfin, ?_⟩
  unfold get_all_dependencies_efficient
  rw [hfin]

/-! ### Characterization of the closure as graph reachability (for C5) -/

/-- `y` is a direct dependency of the record stored under `x`. -/
def depEdge (dict : String → Option Mod) (x y : String) : Prop :=
  ∃ m, dict x = some m ∧ y ∈ modDeps m

/-- Reachability from the seed set along stored dependency edges
(reflexive-transitive). -/
inductive Reaches (dict : String → Option Mod) (S : List String) : String → Prop where
  | seed {x : String} : x ∈ S → Reaches dict S x
  | step {x y : String} : Reaches dict S x → depEdge dict x y → Reaches dict S y

/-- The loop invariant tying the three sets to reachability: everything in
them is reachable, every processed id has all its dependencies recorded, and
every seed or recorded dependency is processed or still queued. -/
def ClosureInv (dict : String → Option Mod) (seeds : List String)
    (st : ClosureState) : Prop :=
  (∀ x ∈ st.to_process, Reaches dict seeds x) ∧
  (∀ x ∈ st.processed, Reaches dict seeds x) ∧
  (∀ y ∈ st.all_dependencies, Reaches dict seeds y) ∧
  (∀ y ∈ st.processed, ∀ z, depEdge dict y z → z ∈ st.all_dependencies) ∧
  (∀ y ∈ seeds, y ∈ st.processed ∨ y ∈ st.to_process) ∧
  (∀ y ∈ st.all_dependencies, y ∈ st.processed ∨ y ∈ st.to_process)

theorem closureInv_step (dict : String → Option Mod) (seeds : List String) :
    ∀ st current rest, st.to_process = current :: rest →
      ClosureInv dict seeds st → ClosureInv dict seeds (depStep dict st current rest) := by
  intro st current rest hto hInv
  obtain ⟨hTP, hP, hA, hclosed, hseedcov, hacov⟩ := hInv
  have hcur : Reaches dict seeds current :=
    hTP current (by rw [hto]; exact List.mem_cons_self _ _)
  have hTPrest : ∀ x ∈ rest, Reaches dict seeds x := fun x hx =>
    hTP x (by rw [hto]; exact List.mem_cons_of_mem _ hx)
  have hcov : ∀ y, (y ∈ st.processed ∨ y ∈ st.to_process) →
      y ∈ st.processed.insert current ∨ y = current ∨ y ∈ rest := by
    intro y hy
    rcases hy with hy | hy
    · exact Or.inl (List.mem_insert_iff.mpr (Or.inr hy))
    · rw [hto] at hy
      rcases List.mem_cons.mp hy with heq | hy
      · exact Or.inr (Or.inl heq)
      · exact Or.inr (Or.inr hy)
  by_cases hc : current ∈ st.processed
  · have hd : depStep dict st current rest = { st with to_process := rest } := by
      unfold depStep; rw [if_pos hc]
    rw [hd]
    have hskipcov : ∀ y, (y ∈ st.processed ∨ y ∈ st.to_process) →
        y ∈ st.processed ∨ y ∈ rest := by
      intro y hy
      rcases hy with hy | hy
      · exact Or.inl hy
      · rw [hto] at hy
        rcases List.mem_cons.mp hy with heq | hy
        · exact Or.inl (heq ▸ hc)
        · exact Or.inr hy
    exact ⟨hTPrest, hP, hA, hclosed,
      fun y hy => hskipcov y (hseedcov y hy),
      fun y hy => hskipcov y (hacov y hy)⟩
  · cases hdc : dict current with
    | none =>
      have hd : depStep dict st current rest =
          { st with to_process := rest, processed := st.processed.insert current } := by
        unfold depStep; rw [if_neg hc, hdc]
      rw [hd]
      have hP2 : ∀ x ∈ st.processed.insert current, Reaches dict seeds x := by
        intro x hx
        rcases List.mem_insert_iff.mp hx with heq | hx
        · exact heq ▸ hcur
        · exact hP x hx
      have hclosed2 : ∀ y ∈ st.processed.insert current, ∀ z, depEdge dict y z →
          z ∈ st.all_dependencies := by
        intro y hy z hz
        rcases List.mem_insert_iff.mp hy with heq | hy
        · rcases hz with ⟨m, hzm, _⟩
          rw [heq, hdc] at hzm
          cases hzm
        · exact hclosed y hy z hz
      have hcov2 : ∀ y, (y ∈ st.processed ∨ y ∈ st.to_process) →
          y ∈ st.processed.insert current ∨ y ∈ rest := by
        intro y hy
        rcases hcov y hy with hy | hy | hy
        · exact Or.inl hy
        · exact Or.inl (List.mem_insert_iff.mpr (Or.inl hy))
        · exact Or.inr hy
      exact ⟨hTPrest, hP2, hA, hclosed2,
        fun y hy => hcov2 y (hseedcov y hy),
        fun y hy => hcov2 y (hacov y hy)⟩
    | some m =>
      have hd : depStep dict st current rest =
          { all_dependencies := insertAll st.all_dependencies (modDeps m)
            to_process := enqueueNew (st.processed.insert current) rest (modDeps m)
            processed := st.processed.insert current } := by
        unfold depStep; rw [if_neg hc, hdc]
      rw [hd]
      have hdepR : ∀ d ∈ modDeps m, Reaches dict seeds d := fun d hdm =>
        Reaches.step hcur ⟨m, hdc, hdm⟩
      have hTP2 : ∀ x ∈ enqueueNew (st.processed.insert current) rest (modDeps m),
          Reaches dict seeds x := by
        intro x hx
        rcases (mem_enqueueNew _ _ _ _).mp hx with hx | hx
        · exact hTPrest x hx
        · exact hdepR x hx.1
      have hP2 : ∀ x ∈ st.processed.insert current, Reaches dict seeds x := by
        intro x hx
        rcases List.mem_insert_iff.mp hx with heq | hx
        · exact heq ▸ hcur
        · exact hP x hx
      have hA2 : ∀ y ∈ insertAll st.all_dependencies (modDeps m),
          Reaches dict seeds y := by
        intro y hy
        rcases (mem_insertAll _ _ _).mp hy with hy | hy
        · exact hA y hy
        · exact hdepR y hy
      have hclosed2 : ∀ y ∈ st.processed.insert current, ∀ z, depEdge dict y z →
          z ∈ insertAll st.all_dependencies (modDeps m) := by
        intro y hy z hz
        rcases List.mem_insert_iff.mp hy with heq | hy
        · rcases hz with ⟨m2, hzm, hzd⟩
          rw [heq, hdc] at hzm
          injection hzm with hzm
          subst hzm
          exact (mem_insertAll _ _ _).mpr (Or.inr hzd)
        · exact (mem_insertAll _ _ _).mpr (Or.inl (hclosed y hy z hz))
      have hcov2 : ∀ y, (y ∈ st.processed ∨ y ∈ st.to_process) →
          y ∈ st.processed.insert current ∨
            y ∈ enqueueNew (st.processed.insert current) rest (modDeps m) := by
        intro y hy
        rcases hcov y hy with hy | hy | hy
        · exact Or.inl hy
        · exact Or.inl (List.mem_insert_iff.mpr (Or.inl hy))
        · exact Or.inr ((mem_enqueueNew _ _ _ _).mpr (Or.inl hy))
      refine ⟨hTP2, hP2, hA2, hclosed2,
        fun y hy => hcov2 y (hseedcov y hy), ?_⟩
      intro y hy
      rcases (mem_insertAll _ _ _).mp hy with hy | hy
      · exact hcov2 y (hacov y hy)
      · by_cases hyp : y ∈ st.processed.insert current
        · exact Or.inl hyp
        · exact Or.inr ((mem_enqueueNew _ _ _ _).mpr (Or.inr ⟨hy, hyp⟩))

/-- Membership in the computed closure, together with the seeds, is exactly
reachability along stored dependency edges. -/
theorem closure_mem_iff (mods : List Mod) (seeds : List String) :
    ∀ x, (x ∈ get_all_dependencies_efficient mods seeds ∨ x ∈ seeds) ↔
      Reaches (modsDict mods) seeds x := by
  rcases Option.isSome_iff_exists.mp (closure_loop_some mods seeds) with ⟨fin, hfin⟩
  have hinit : ClosureInv (modsDict mods) seeds (initClosureState seeds) := by
    refine ⟨?_, ?_, ?_, ?_, ?_, ?_⟩ <;>
      simp only [initClosureState, List.not_mem_nil, false_implies, implies_true,
        List.mem_dedup]
    · intro x hx
      exact Reaches.seed hx
    · intro y hy
      exact Or.inr hy
  obtain ⟨⟨hTP, hP, hA, hclosed, hseedcov, hacov⟩, hempty⟩ :=
    depLoop_invariant (modsDict mods) (ClosureInv (modsDict mods) seeds)
      (closureInv_step (modsDict mods) seeds) _ _ _ hfin hinit
  have hres : get_all_dependencies_efficient mods seeds = fin.all_dependencies := by
    unfold get_all_dependencies_efficient
    rw [hfin]
  intro x
  rw [hres]
  constructor
  · rintro (hx | hx)
    · exact hA x hx
    · exact Reaches.seed hx
  · intro hreach
    induction hreach with
    | seed h => exact Or.inr h
    | step hr he ih =>
      rcases ih with h | h
      · rcases hacov _ h with hp | hp
        · exact Or.inl (hclosed _ hp _ he)
        · rw [hempty] at hp
          cases hp
      · rcases hseedcov _ h with hp | hp
        · exact Or.inl (hclosed _ hp _ he)
        · rw [hempty] at hp
          cases hp

/-- C5: the transitive-dependency closure is idempotent — closing over
`closure(S) ∪ S` yields nothing outside `closure(S) ∪ S`. -/
theorem c5_idempotent : ∀ (mods : List Mod) (S : List String) (x : String),
    x ∈ get_all_dependencies_efficient mods
      (get_all_dependencies_efficient mods S ++ S) →
    x ∈ get_all_dependencies_efficient mods S ∨ x ∈ S := by
  intro mods S x hx
  have h1 : Reaches (modsDict mods) (get_all_dependencies_efficient mods S ++ S) x :=
    (closure_mem_iff mods _ x).mp (Or.inl hx)
  clear hx
  have h2 : Reaches (modsDict mods) S x := by
    induction h1 with
    | seed h =>
      rcases List.mem_append.mp h with h | h
      · exact (closure_mem_iff mods S _).mp (Or.inl h)
      · exact Reaches.seed h
    | step hr he ih => exact Reaches.step ih he
  exact (closure_mem_iff mods S x).mpr h2

/-- A three-record chain used to witness `c5_idempotent`. -/
def chainMod (i : String) (deps : List String) : Mod :=
  { id := i, url := "", info := { dependencies := some deps }, is_dependency := false }

/-- The chain repository 1 → 2 → 3. -/
def chainMods : List Mod :=
  [chainMod "1" ["2"], chainMod "2" ["3"], chainMod "3" []]

/-- Witness for `c5_idempotent` at a concrete repository and seed set. -/
theorem c5_witness :
    "2" ∈ get_all_dependencies_efficient chainMods
        (get_all_dependencies_efficient chainMods ["1"] ++ ["1"]) ∧
    ("2" ∈ get_all_dependencies_efficient chainMods ["1"] ∨ "2" ∈ ["1"]) :=
  ⟨by decide, c5_idempotent chainMods ["1"] "2" (by decide)⟩

/-! ## `ModManager.build_hierarchical_list` (mod_manager.py lines 186-233)

`add_mod_with_dependencies` closes over the shared `hierarchical_list` and
`processed_mods` (threaded through as `acc` and `processed`) while `visited`
is passed down by copy (`visited.copy()`), so every child of one parent
receives the same per-path set.  Fuel bounds the recursion depth; the depth
is bounded by the number of stored ids (`hierWalk_never_exhausts`). -/

/-- The `for dep_id in dependencies:` loop inside
`add_mod_with_dependencies`: recurse (via the supplied child walker `walk`,
which closes over the remaining fuel and the child indent) into each
dependency that exists and is not on the current path, handing every child
the same copied `visited`. -/
def hierWalkDeps (dict : String → Option Mod)
    (walk : Mod → List String → List (Mod × Nat) →
      Option (List String × List (Mod × Nat)))
    (visited : List String) :
    List String → List String → List (Mod × Nat) →
      Option (List String × List (Mod × Nat))
  | [], processed, acc => some (processed, acc)
  | dep :: rest, processed, acc =>
    match dict dep with
    | some depMod =>
      if dep ∉ visited then
        match walk depMod processed acc with
        | none => none
        | some (processed2, acc2) =>
          hierWalkDeps dict walk visited rest processed2 acc2
      else
        hierWalkDeps dict walk visited rest processed acc
    | none => hierWalkDeps dict walk visited rest processed acc

/-- `add_mod_with_dependencies(mod, indent_level, visited)`.  The fuel bounds
the recursion depth only; it never runs out because each recursive step adds
a fresh stored id to `visited` (`hierWalk_isSome`). -/
def hierWalk (dict : String → Option Mod) :
    Nat → Mod → Nat → List String → List String → List (Mod × Nat) →
      Option (List String × List (Mod × Nat))
  | fuel, m, indent, visited, processed, acc =>
    if m.id ∈ visited ∨ m.id ∈ processed then some (processed, acc)
    else
      match fuel with
      | 0 => none
      | f + 1 =>
        hierWalkDeps dict
          (fun dm p a => hierWalk dict f dm (indent + 1) (visited.insert m.id) p a)
          (visited.insert m.id) (modDeps m)
          (processed.insert m.id) (acc ++ [(m, indent)])

/-- The ids appearing in anyone's dependency list (`dependency_mods`; only
membership is ever queried, so a list models the Python set). -/
def dependencyIds (mods : List Mod) : List String :=
  mods.flatMap modDeps

/-- The `root_mods` selection: keep a record if it is not a dependency, or
if nothing visible requires it. -/
def rootMods (mods : List Mod) : List Mod :=
  mods.filter (fun m => !m.is_dependency || !((dependencyIds mods).contains m.id))

/-- The `for mod in root_mods: add_mod_with_dependencies(mod)` phase. -/
def walkRoots (dict : String → Option Mod) (fuel : Nat) :
    List Mod → List String → List (Mod × Nat) →
      Option (List String × List (Mod × Nat))
  | [], processed, acc => some (processed, acc)
  | m :: rest, processed, acc =>
    match hierWalk dict fuel m 0 [] processed acc with
    | none => none
    | some (p2, a2) => walkRoots dict fuel rest p2 a2

/-- The final `for mod in self.mods: if mod['id'] not in processed_mods`
phase appending records never visited from a root. -/
def walkOrphans (dict : String → Option Mod) (fuel : Nat) :
    List Mod → List String → List (Mod × Nat) →
      Option (List String × List (Mod × Nat))
  | [], processed, acc => some (processed, acc)
  | m :: rest, processed, acc =>
    if m.id ∈ processed then walkOrphans dict fuel rest processed acc
    else
      match hierWalk dict fuel m 0 [] processed acc with
      | none => none
      | some (p2, a2) => walkOrphans dict fuel rest p2 a2

/-- `ModManager.build_hierarchical_list` (the fuel `mods.length + 1` is
proved sufficient below: the walk always returns `some`). -/
def build_hierarchical_list (mods : List Mod) : Option (List (Mod × Nat)) :=
  match walkRoots (modsDict mods) (mods.length + 1) (rootMods mods) [] [] with
  | none => none
  | some (processed, acc) =>
    match walkOrphans (modsDict mods) (mods.length + 1) mods processed acc with
    | none => none
    | some (_, acc2) => some acc2

/-! ### Unfolding lemmas for the walk -/

theorem hierWalk_guard (dict : String → Option Mod) (fuel : Nat) (m : Mod)
    (indent : Nat) (visited processed : List String) (acc : List (Mod × Nat))
    (hg : m.id ∈ visited ∨ m.id ∈ processed) :
    hierWalk dict fuel m indent visited processed acc = some (processed, acc) := by
  rw [hierWalk.eq_def]
  show (if m.id ∈ visited ∨ m.id ∈ processed then some (processed, acc)
        else match fuel with
          | 0 => none
          | f + 1 =>
            hierWalkDeps dict
              (fun dm p a => hierWalk dict f dm (indent + 1) (visited.insert m.id) p a)
              (visited.insert m.id) (modDeps m)
              (processed.insert m.id) (acc ++ [(m, indent)])) = _
  rw [if_pos hg]

theorem hierWalk_zero (dict : String → Option Mod) (m : Mod) (indent : Nat)
    (visited processed : List String) (acc : List (Mod × Nat))
    (hg : ¬(m.id ∈ visited ∨ m.id ∈ processed)) :
    hierWalk dict 0 m indent visited processed acc = none := by
  show (if m.id ∈ visited ∨ m.id ∈ processed then some (processed, acc)
        else none) = none
  rw [if_neg hg]

theorem hierWalk_step (dict : String → Option Mod) (f : Nat) (m : Mod)
    (indent : Nat) (visited processed : List String) (acc : List (Mod × Nat))
    (hg : ¬(m.id ∈ visited ∨ m.id ∈ processed)) :
    hierWalk dict (f + 1) m indent visited processed acc =
      hierWalkDeps dict
        (fun dm p a => hierWalk dict f dm (indent + 1) (visited.insert m.id) p a)
        (visited.insert m.id) (modDeps m)
        (processed.insert m.id) (acc ++ [(m, indent)]) := by
  show (if m.id ∈ visited ∨ m.id ∈ processed then some (processed, acc)
        else hierWalkDeps dict
          (fun dm p a => hierWalk dict f dm (indent + 1) (visited.insert m.id) p a)
          (visited.insert m.id) (modDeps m)
          (processed.insert m.id) (acc ++ [(m, indent)])) = _
  rw [if_neg hg]

theorem hierWalkDeps_nil (dict : String → Option Mod)
    (walk : Mod → List String → List (Mod × Nat) →
      Option (List String × List (Mod × Nat)))
    (visited processed : List String) (acc : List (Mod × Nat)) :
    hierWalkDeps dict walk visited [] processed acc = some (processed, acc) := by
  rw [hierWalkDeps]

theorem hierWalkDeps_cons_none (dict : String → Option Mod)
    (walk : Mod → List String → List (Mod × Nat) →
      Option (List String × List (Mod × Nat)))
    (visited : List String) (dep : String) (rest : List String)
    (processed : List String) (acc : List (Mod × Nat)) (hdd : dict dep = none) :
    hierWalkDeps dict walk visited (dep :: rest) processed acc =
      hierWalkDeps dict walk visited rest processed acc := by
  rw [hierWalkDeps, hdd]

theorem hierWalkDeps_cons_visited (dict : String → Option Mod)
    (walk : Mod → List String → List (Mod × Nat) →
      Option (List String × List (Mod × Nat)))
    (visited : List String) (dep : String) (rest : List String)
    (processed : List String) (acc : List (Mod × Nat)) (depMod : Mod)
    (hdd : dict dep = some depMod) (hv : dep ∈ visited) :
    hierWalkDeps dict walk visited (dep :: rest) processed acc =
      hierWalkDeps dict walk visited rest processed acc := by
  rw [hierWalkDeps, hdd]
  exact if_neg (fun h => h hv)

theorem hierWalkDeps_cons_walk (dict : String → Option Mod)
    (walk : Mod → List String → List (Mod × Nat) →
      Option (List String × List (Mod × Nat)))
    (visited : List String) (dep : String) (rest : List String)
    (processed : List String) (acc : List (Mod × Nat)) (depMod : Mod)
    (hdd : dict dep = some depMod) (hv : dep ∉ visited) :
    hierWalkDeps dict walk visited (dep :: rest) processed acc =
      match walk depMod processed acc with
      | none => none
      | some (p2, a2) => hierWalkDeps dict walk visited rest p2 a2 := by
  rw [hierWalkDeps, hdd]
  exact if_pos hv

/-! ### The walk never exhausts its fuel -/

theorem hierWalkDeps_isSome (dict : String → Option Mod)
    (walk : Mod → List String → List (Mod × Nat) →
      Option (List String × List (Mod × Nat)))
    (visited : List String)
    (hwalk : ∀ dep depMod processed acc, dict dep = some depMod →
      (walk depMod processed acc).isSome) :
    ∀ (deps : List String) (processed : List String) (acc : List (Mod × Nat)),
      (hierWalkDeps dict walk visited deps processed acc).isSome := by
  intro deps
  induction deps with
  | nil =>
    intro processed acc
    rw [hierWalkDeps_nil]
    rfl
  | cons dep rest ihd =>
    intro processed acc
    cases hdd : dict dep with
    | none =>
      rw [hierWalkDeps_cons_none dict walk visited dep rest processed acc hdd]
      exact ihd processed acc
    | some depMod =>
      by_cases hv : dep ∈ visited
      · rw [hierWalkDeps_cons_visited dict walk visited dep rest processed acc
          depMod hdd hv]
        exact ihd processed acc
      · rw [hierWalkDeps_cons_walk dict walk visited dep rest processed acc
          depMod hdd hv]
        rcases Option.isSome_iff_exists.mp (hwalk dep depMod processed acc hdd)
          with ⟨r, hr⟩
        rw [hr]
        rcases r with ⟨p2, a2⟩
        exact ihd p2 a2

theorem hierWalk_isSome (dict : String → Option Mod) (allIds : Finset String)
    (hdict : ∀ x md, dict x = some md → md.id ∈ allIds) :
    ∀ (fuel : Nat) (m : Mod) (indent : Nat) (visited processed : List String)
      (acc : List (Mod × Nat)), m.id ∈ allIds →
      (allIds \ visited.toFinset).card < fuel →
      (hierWalk dict fuel m indent visited processed acc).isSome := by
  intro fuel
  induction fuel with
  | zero =>
    intro m indent visited processed acc hmem hcard
    exact absurd hcard (Nat.not_lt_zero _)
  | succ f ih =>
    intro m indent visited processed acc hmem hcard
    by_cases hg : m.id ∈ visited ∨ m.id ∈ processed
    · rw [hierWalk_guard dict (f + 1) m indent visited processed acc hg]
      rfl
    · rw [hierWalk_step dict f m indent visited processed acc hg]
      have hnv : m.id ∉ visited := fun h => hg (Or.inl h)
      have hcard2 : (allIds \ (visited.insert m.id).toFinset).card < f := by
        have := card_sdiff_insert_succ allIds visited m.id hmem hnv
        omega
      exact hierWalkDeps_isSome dict _ (visited.insert m.id)
        (fun dep depMod p a hdd =>
          ih depMod (indent + 1) (visited.insert m.id) p a
            (hdict dep depMod hdd) hcard2)
        (modDeps m) (processed.insert m.id) (acc ++ [(m, indent)])

/-! ### The walk emits each record at most once -/

/-- Ids of the emitted rows. -/
def accIds (acc : List (Mod × Nat)) : List String :=
  acc.map (fun p => p.1.id)

/-- Invariant tying the output rows to the global `processed_mods` set:
row ids are pairwise distinct and all marked processed. -/
def AccInv (processed : List String) (acc : List (Mod × Nat)) : Prop :=
  (accIds acc).Nodup ∧ ∀ i ∈ accIds acc, i ∈ processed

theorem accInv_push (processed : List String) (acc : List (Mod × Nat)) (m : Mod)
    (indent : Nat) (hInv : AccInv processed acc) (hnp : m.id ∉ processed) :
    AccInv (processed.insert m.id) (acc ++ [(m, indent)]) := by
  obtain ⟨hnd, hsub⟩ := hInv
  have hids : accIds (acc ++ [(m, indent)]) = accIds acc ++ [m.id] := by
    simp [accIds]
  constructor
  · rw [hids, List.nodup_append]
    refine ⟨hnd, List.nodup_singleton _, fun a ha hb => ?_⟩
    rw [List.mem_singleton] at hb
    subst hb
    exact hnp (hsub _ ha)
  · intro i hi
    rw [hids] at hi
    rcases List.mem_append.mp hi with hi | hi
    · exact List.mem_insert_iff.mpr (Or.inr (hsub i hi))
    · rw [List.mem_singleton] at hi
      exact List.mem_insert_iff.mpr (Or.inl hi)

theorem hierWalkDeps_accInv (dict : String → Option Mod)
    (walk : Mod → List String → List (Mod × Nat) →
      Option (List String × List (Mod × Nat)))
    (visited : List String)
    (hwalk : ∀ depMod processed acc p2 a2, walk depMod processed acc = some (p2, a2) →
      AccInv processed acc → AccInv p2 a2 ∧ ∀ i ∈ processed, i ∈ p2) :
    ∀ (deps : List String) (processed : List String) (acc : List (Mod × Nat))
      (p2 : List String) (a2 : List (Mod × Nat)),
      hierWalkDeps dict walk visited deps processed acc = some (p2, a2) →
      AccInv processed acc → AccInv p2 a2 ∧ ∀ i ∈ processed, i ∈ p2 := by
  intro deps
  induction deps with
  | nil =>
    intro processed acc p2 a2 h hInv
    rw [hierWalkDeps_nil] at h
    injection h with h
    have h1 : processed = p2 := congrArg Prod.fst h
    have h2 : acc = a2 := congrArg Prod.snd h
    subst h1
    subst h2
    exact ⟨hInv, fun i hi => hi⟩
  | cons dep rest ihd =>
    intro processed acc p2 a2 h hInv
    cases hdd : dict dep with
    | none =>
      rw [hierWalkDeps_cons_none dict walk visited dep rest processed acc hdd] at h
      exact ihd processed acc p2 a2 h hInv
    | some depMod =>
      by_cases hv : dep ∈ visited
      · rw [hierWalkDeps_cons_visited dict walk visited dep rest processed acc
          depMod hdd hv] at h
        exact ihd processed acc p2 a2 h hInv
      · rw [hierWalkDeps_cons_walk dict walk visited dep rest processed acc
          depMod hdd hv] at h
        cases hw : walk depMod processed acc with
        | none =>
          rw [hw] at h
          cases h
        | some r =>
          rcases r with ⟨pm, am⟩
          rw [hw] at h
          have hmid := hwalk depMod processed acc pm am hw hInv
          have htail := ihd pm am p2 a2 h hmid.1
          exact ⟨htail.1, fun i hi => htail.2 i (hmid.2 i hi)⟩

theorem hierWalk_accInv (dict : String → Option Mod) :
    ∀ (fuel : Nat) (m : Mod) (indent : Nat) (visited processed : List String)
      (acc : List (Mod × Nat)) (p2 : List String) (a2 : List (Mod × Nat)),
      hierWalk dict fuel m indent visited processed acc = some (p2, a2) →
      AccInv processed acc → AccInv p2 a2 ∧ ∀ i ∈ processed, i ∈ p2 := by
  intro fuel
  induction fuel with
  | zero =>
    intro m indent visited processed acc p2 a2 h hInv
    by_cases hg : m.id ∈ visited ∨ m.id ∈ processed
    · rw [hierWalk_guard dict 0 m indent visited processed acc hg] at h
      injection h with h
      have h1 : processed = p2 := congrArg Prod.fst h
      have h2 : acc = a2 := congrArg Prod.snd h
      subst h1
      subst h2
      exact ⟨hInv, fun i hi => hi⟩
    · rw [hierWalk_zero dict m indent visited processed acc hg] at h
      cases h
  | succ f ih =>
    intro m indent visited processed acc p2 a2 h hInv
    by_cases hg : m.id ∈ visited ∨ m.id ∈ processed
    · rw [hierWalk_guard dict (f + 1) m indent visited processed acc hg] at h
      injection h with h
      have h1 : processed = p2 := congrArg Prod.fst h
      have h2 : acc = a2 := congrArg Prod.snd h
      subst h1
      subst h2
      exact ⟨hInv, fun i hi => hi⟩
    · rw [hierWalk_step dict f m indent visited processed acc hg] at h
      have hnp : m.id ∉ processed := fun hmem => hg (Or.inr hmem)
      have hmid := accInv_push processed acc m indent hInv hnp
      have hres := hierWalkDeps_accInv dict _ (visited.insert m.id)
        (fun dm p a q2 b2 hw hI =>
          ih dm (indent + 1) (visited.insert m.id) p a q2 b2 hw hI)
        (modDeps m) (processed.insert m.id) (acc ++ [(m, indent)]) p2 a2 h hmid
      refine ⟨hres.1, fun i hi => hres.2 i ?_⟩
      exact List.mem_insert_iff.mpr (Or.inr hi)

/-! ### The two walk phases of `build_hierarchical_list` -/

theorem walkRoots_cons (dict : String → Option Mod) (fuel : Nat) (m : Mod)
    (rest : List Mod) (processed : List String) (acc : List (Mod × Nat)) :
    walkRoots dict fuel (m :: rest) processed acc =
      match hierWalk dict fuel m 0 [] processed acc with
      | none => none
      | some (p2, a2) => walkRoots dict fuel rest p2 a2 := rfl

theorem walkOrphans_cons (dict : String → Option Mod) (fuel : Nat) (m : Mod)
    (rest : List Mod) (processed : List String) (acc : List (Mod × Nat)) :
    walkOrphans dict fuel (m :: rest) processed acc =
      if m.id ∈ processed then walkOrphans dict fuel rest processed acc
      else
        match hierWalk dict fuel m 0 [] processed acc with
        | none => none
        | some (p2, a2) => walkOrphans dict fuel rest p2 a2 := rfl

theorem card_sdiff_nil (allIds : Finset String) :
    (allIds \ ([] : List String).toFinset).card = allIds.card := by
  simp

theorem walkRoots_some_inv (dict : String → Option Mod) (allIds : Finset String)
    (hdict : ∀ x md, dict x = some md → md.id ∈ allIds) (fuel : Nat)
    (hfuel : allIds.card < fuel) :
    ∀ (ms : List Mod) (processed : List String) (acc : List (Mod × Nat)),
      (∀ m ∈ ms, m.id ∈ allIds) → AccInv processed acc →
      ∃ p2 a2, walkRoots dict fuel ms processed acc = some (p2, a2) ∧ AccInv p2 a2 := by
  intro ms
  induction ms with
  | nil =>
    intro processed acc _ hInv
    exact ⟨processed, acc, rfl, hInv⟩
  | cons m rest ih =>
    intro processed acc hms hInv
    have hw := hierWalk_isSome dict allIds hdict fuel m 0 [] processed acc
      (hms m (List.mem_cons_self _ _)) (by rw [card_sdiff_nil]; exact hfuel)
    rcases Option.isSome_iff_exists.mp hw with ⟨r, hr⟩
    rcases r with ⟨p2, a2⟩
    have hinv2 := hierWalk_accInv dict fuel m 0 [] processed acc p2 a2 hr hInv
    rw [walkRoots_cons, hr]
    exact ih p2 a2 (fun x hx => hms x (List.mem_cons_of_mem _ hx)) hinv2.1

theorem walkOrphans_some_inv (dict : String → Option Mod) (allIds : Finset String)
    (hdict : ∀ x md, dict x = some md → md.id ∈ allIds) (fuel : Nat)
    (hfuel : allIds.card < fuel) :
    ∀ (ms : List Mod) (processed : List String) (acc : List (Mod × Nat)),
      (∀ m ∈ ms, m.id ∈ allIds) → AccInv processed acc →
      ∃ p2 a2, walkOrphans dict fuel ms processed acc = some (p2, a2) ∧ AccInv p2 a2 := by
  intro ms
  induction ms with
  | nil =>
    intro processed acc _ hInv
    exact ⟨processed, acc, rfl, hInv⟩
  | cons m rest ih =>
    intro processed acc hms hInv
    rw [walkOrphans_cons]
    by_cases hp : m.id ∈ processed
    · rw [if_pos hp]
      exact ih processed acc (fun x hx => hms x (List.mem_cons_of_mem _ hx)) hInv
    · rw [if_neg hp]
      have hw := hierWalk_isSome dict allIds hdict fuel m 0 [] processed acc
        (hms m (List.mem_cons_self _ _)) (by rw [card_sdiff_nil]; exact hfuel)
      rcases Option.isSome_iff_exists.mp hw with ⟨r, hr⟩
      rcases r with ⟨p2, a2⟩
      have hinv2 := hierWalk_accInv dict fuel m 0 [] processed acc p2 a2 hr hInv
      rw [hr]
      exact ih p2 a2 (fun x hx => hms x (List.mem_cons_of_mem _ hx)) hinv2.1

/-- C2 (amended): the depth-first walk carries a per-path `visited` set copied
down each recursion, but additionally a *global* `processed_mods` set, so the
reconstruction always returns (never loops, even on cyclic graphs — the fuel
`mods.length + 1` is never exhausted) and every record is emitted at most
once overall: the first path reaching a shared dependency emits it, later
paths skip it. -/
theorem c2_hierarchy_amended : ∀ mods : List Mod,
    ∃ out, build_hierarchical_list mods = some out ∧ (accIds out).Nodup := by
  intro mods
  have hdict : ∀ x md, modsDict mods x = some md →
      md.id ∈ (mods.map Mod.id).toFinset := by
    intro x md h
    have hmem : md ∈ mods := List.mem_reverse.mp (List.mem_of_find?_eq_some h)
    exact List.mem_toFinset.mpr (List.mem_map.mpr ⟨md, hmem, rfl⟩)
  have hfuel : (mods.map Mod.id).toFinset.card < mods.length + 1 := by
    have h1 := List.toFinset_card_le (mods.map Mod.id)
    rw [List.length_map] at h1
    omega
  have hroots : ∀ m ∈ rootMods mods, m.id ∈ (mods.map Mod.id).toFinset := by
    intro m hm
    have : m ∈ mods := (List.mem_filter.mp hm).1
    exact List.mem_toFinset.mpr (List.mem_map.mpr ⟨m, this, rfl⟩)
  have hall : ∀ m ∈ mods, m.id ∈ (mods.map Mod.id).toFinset := fun m hm =>
    List.mem_toFinset.mpr (List.mem_map.mpr ⟨m, hm, rfl⟩)
  obtain ⟨p1, a1, h1, hinv1⟩ := walkRoots_some_inv (modsDict mods) _ hdict
    (mods.length + 1) hfuel (rootMods mods) [] [] hroots
    ⟨List.nodup_nil, by intro i hi; cases hi⟩
  obtain ⟨p2, a2, h2, hinv2⟩ := walkOrphans_some_inv (modsDict mods) _ hdict
    (mods.length + 1) hfuel mods p1 a1 hall hinv1
  refine ⟨a2, ?_, hinv2.1⟩
  unfold build_hierarchical_list
  rw [h1]
  show (match walkOrphans (modsDict mods) (mods.length + 1) mods p1 a1 with
        | none => none
        | some (_, acc2) => some acc2) = some a2
  rw [h2]

/-- The diamond repository: mod 1 requires 2 and 3, each of which requires 4. -/
def diamondMod (i : String) (deps : List String) (isdep : Bool) : Mod :=
  { id := i, url := "", info := { dependencies := some deps }, is_dependency := isdep }

def diamondMods : List Mod :=
  [diamondMod "1" ["2", "3"] false, diamondMod "2" ["4"] true,
   diamondMod "3" ["4"] true, diamondMod "4" [] true]

/-- C2, claim refuted at a concrete input: in the diamond 1 → {2, 3} → 4 the
record 4 is required on two distinct paths (under 2 and under 3), yet the
reconstruction emits it exactly once (under 2, the first path), because the
walk also consults the global processed set — not once per distinct path as
claimed. -/
theorem c2_counterexample :
    (build_hierarchical_list diamondMods).map
        (fun l => l.map (fun p => (p.1.id, p.2))) =
      some [("1", 0), ("2", 1), ("4", 2), ("3", 1)] ∧
    ((build_hierarchical_list diamondMods).getD []).countP
        (fun p => p.1.id == "4") = 1 ∧
    "4" ∈ modDeps (diamondMod "2" ["4"] true) ∧
    "4" ∈ modDeps (diamondMod "3" ["4"] true) := by
  refine ⟨?_, ?_, ?_, ?_⟩ <;> decide

/-! ## `SteamCMDDownloader` (steamcmd_downloader.py)

External effects are injected as data: the `is_steamcmd_available()` check is
a boolean argument, and a run of the subprocess is represented by the list of
output lines the polling loop processed before it exited (by process end,
stop request or timeout — all exits lead to the same post-loop adjustment),
or `none` when an exception interrupts the monitored execution.  The
progress/log/status callbacks are pure observers and are not modelled. -/

structure FailedDetail where
  id : String
  title : String
  reason : String
deriving DecidableEq, Repr

structure DownloadResult where
  completed : Nat
  successful : Nat
  failed_ids : List String
  failed_details : List FailedDetail
deriving DecidableEq, Repr

/-- Substring test over character lists (`re.search` of a literal). -/
def containsSub (hay needle : List Char) : Bool :=
  hay.tails.any (fun t => needle.isPrefixOf t)

/-- Case-insensitive matching lowers the line first (`re.IGNORECASE`),
character by character. -/
def lowerChars (s : String) : List Char :=
  s.toList.map Char.toLower

/-- `re.compile(r'success\.', re.IGNORECASE)` applied with `search`. -/
def successPat (line : String) : Bool :=
  containsSub (lowerChars line) "success.".toList

/-- `re.compile(r'error|failed|timeout', re.IGNORECASE)` applied with
`search`. -/
def errorPat (line : String) : Bool :=
  containsSub (lowerChars line) "error".toList ||
    containsSub (lowerChars line) "failed".toList ||
    containsSub (lowerChars line) "timeout".toList

/-- `re.compile(r'downloading item (\d+)', re.IGNORECASE)` with `search`:
the leftmost occurrence of the literal followed by at least one digit, whose
maximal digit run is the captured group (the line is lowercased first, which
leaves digits unchanged). -/
def findStartId : List Char → Option String
  | [] => none
  | c :: rest =>
    (if "downloading item ".toList.isPrefixOf (c :: rest) then
      let tail := (c :: rest).drop "downloading item ".toList.length
      let ds := tail.takeWhile Char.isDigit
      if ds.isEmpty then none else some (String.mk ds)
    else none).orElse (fun _ => findStartId rest)

def startPat (line : String) : Option String :=
  findStartId (lowerChars line)

/-- Python truthiness of `mod.get("info", {}).get("app_id")`: absent or zero
is falsy, so such a batch entry is pre-filtered. -/
def appIdFalsy (m : Mod) : Bool :=
  match m.info.app_id with
  | none => true
  | some n => n == 0

/-- The pre-filter loop of `download_mods` (lines 49-59): split the batch in
order into valid mods and pre-filtered "No App ID found" failures. -/
def prefilter : List Mod → List Mod × List String × List FailedDetail
  | [] => ([], [], [])
  | m :: rest =>
    let r := prefilter rest
    if appIdFalsy m then
      (r.1, m.id :: r.2.1,
        { id := m.id, title := m.info.title.getD m.id,
          reason := "No App ID found" } :: r.2.2)
    else
      (m :: r.1, r.2.1, r.2.2)

/-- The mutable loop state of `_execute_steamcmd_with_monitoring`. -/
structure MonitorState where
  completed_downloads : Nat
  successful_downloads : Nat
  failed_ids : List String
  failed_details : List FailedDetail
  current_mod_info : Option Mod
deriving DecidableEq, Repr

def initMonitor : MonitorState :=
  { completed_downloads := 0, successful_downloads := 0, failed_ids := [],
    failed_details := [], current_mod_info := none }

/-- Lines 184-193: a `downloading item <id>` match binds the "current mod"
context when the id belongs to the batch. -/
def bindStart (valid_mods : List Mod) (st : MonitorState) (line : String) :
    MonitorState :=
  match startPat line with
  | some did =>
    match modsDict valid_mods did with
    | some m => { st with current_mod_info := some m }
    | none => st
  | none => st

/-- Lines 195-232: with a bound context, a success/error match completes the
current mod (success increments the successful count, error records the
failure) and clears the context; with no bound context, a success/error match
completes an anonymous slot as successful while fewer completions than the
valid-batch size have been recorded. -/
def completeLine (valid_mods : List Mod) (st : MonitorState) (line : String) :
    MonitorState :=
  match st.current_mod_info with
  | some cur =>
    if successPat line || errorPat line then
      if successPat line then
        { st with completed_downloads := st.completed_downloads + 1,
                  successful_downloads := st.successful_downloads + 1,
                  current_mod_info := none }
      else
        { st with completed_downloads := st.completed_downloads + 1,
                  failed_ids := st.failed_ids ++ [cur.id],
                  failed_details := st.failed_details ++
                    [{ id := cur.id, title := cur.info.title.getD cur.id,
                       reason := "Download failed" }],
                  current_mod_info := none }
    else st
  | none =>
    if (successPat line || errorPat line) &&
        decide (st.completed_downloads < valid_mods.length) then
      { st with completed_downloads := st.completed_downloads + 1,
                successful_downloads := st.successful_downloads + 1 }
    else st

/-- One polled line: start-binding, then completion (the completion check
runs on the same line that may have just bound the context). -/
def processLine (valid_mods : List Mod) (st : MonitorState) (line : String) :
    MonitorState :=
  completeLine valid_mods (bindStart valid_mods st line) line

/-- The `while process.poll() ...` parse loop over the observed lines. -/
def monitorLoop (valid_mods : List Mod) (lines : List String) : MonitorState :=
  lines.foldl (processLine valid_mods) initMonitor

/-- `_execute_steamcmd_with_monitoring` after a successful launch: run the
parse loop, then the post-loop adjustment (lines 271-280: when fewer
completions than valid mods were recorded, the remaining mods are counted as
completed and successful), and return the result dict (lines 293-294). -/
def execute_steamcmd_with_monitoring (valid_mods : List Mod)
    (lines : List String) : DownloadResult :=
  let st := monitorLoop valid_mods lines
  if st.completed_downloads < valid_mods.length then
    { completed := valid_mods.length,
      successful := st.successful_downloads +
        (valid_mods.length - st.completed_downloads),
      failed_ids := st.failed_ids, failed_details := st.failed_details }
  else
    { completed := st.completed_downloads,
      successful := st.successful_downloads,
      failed_ids := st.failed_ids, failed_details := st.failed_details }

/-- `SteamCMDDownloader.download_mods`: empty batch and missing-SteamCMD
early returns, the pre-filter, then the monitored execution; `launch = none`
models an exception inside `_execute_steamcmd_with_monitoring` (its handler
returns the zero result with the inner failure lists, empty at launch time),
after which the caller still extends the result with the pre-filtered
failures and adds their count to `completed`. -/
def download_mods (available : Bool) (mods : List Mod)
    (launch : Option (List String)) : DownloadResult :=
  if mods.isEmpty then
    { completed := 0, successful := 0, failed_ids := [], failed_details := [] }
  else if !available then
    { completed := 0, successful := 0, failed_ids := [], failed_details := [] }
  else
    let pf := prefilter mods
    if pf.1.isEmpty then
      { completed := pf.2.1.length, successful := 0, failed_ids := pf.2.1,
        failed_details := pf.2.2 }
    else
      match launch with
      | none =>
        { completed := 0 + pf.2.1.length, successful := 0,
          failed_ids := [] ++ pf.2.1, failed_details := [] ++ pf.2.2 }
      | some lines =>
        let r := execute_steamcmd_with_monitoring pf.1 lines
        { completed := r.completed + pf.2.1.length, successful := r.successful,
          failed_ids := r.failed_ids ++ pf.2.1,
          failed_details := r.failed_details ++ pf.2.2 }

/-! ### Lemmas about the monitor -/

theorem prefilter_cons (m : Mod) (rest : List Mod) :
    prefilter (m :: rest) =
      if appIdFalsy m then
        ((prefilter rest).1, m.id :: (prefilter rest).2.1,
          { id := m.id, title := m.info.title.getD m.id,
            reason := "No App ID found" } :: (prefilter rest).2.2)
      else
        (m :: (prefilter rest).1, (prefilter rest).2.1, (prefilter rest).2.2) := by
  show (let r := prefilter rest
    if appIdFalsy m then
      (r.1, m.id :: r.2.1,
        { id := m.id, title := m.info.title.getD m.id,
          reason := "No App ID found" } :: r.2.2)
    else
      (m :: r.1, r.2.1, r.2.2)) = _
  rfl

theorem prefilter_length (mods : List Mod) :
    (prefilter mods).1.length + (prefilter mods).2.1.length = mods.length := by
  induction mods with
  | nil => rfl
  | cons m rest ih =>
    rw [prefilter_cons]
    by_cases h : appIdFalsy m
    · rw [if_pos h]
      simp only [List.length_cons]
      omega
    · rw [if_neg h]
      simp only [List.length_cons]
      omega

theorem bindStart_none (valid : List Mod) (st : MonitorState) (line : String)
    (h : startPat line = none) : bindStart valid st line = st := by
  unfold bindStart
  rw [h]

theorem bindStart_miss (valid : List Mod) (st : MonitorState) (line : String)
    (did : String) (h : startPat line = some did)
    (hd : modsDict valid did = none) : bindStart valid st line = st := by
  unfold bindStart
  rw [h]
  show (match modsDict valid did with
        | some m => { st with current_mod_info := some m }
        | none => st) = st
  rw [hd]

theorem bindStart_hit (valid : List Mod) (st : MonitorState) (line : String)
    (did : String) (m : Mod) (h : startPat line = some did)
    (hd : modsDict valid did = some m) :
    bindStart valid st line = { st with current_mod_info := some m } := by
  unfold bindStart
  rw [h]
  show (match modsDict valid did with
        | some m => { st with current_mod_info := some m }
        | none => st) = _
  rw [hd]

theorem bindStart_nil_valid (st : MonitorState) (line : String) :
    bindStart [] st line = st := by
  cases hsp : startPat line with
  | none => exact bindStart_none [] st line hsp
  | some did => exact bindStart_miss [] st line did hsp rfl

theorem processLine_nil_valid (st : MonitorState) (line : String)
    (h2 : st.current_mod_info = none) :
    processLine [] st line = st := by
  unfold processLine
  rw [bindStart_nil_valid]
  unfold completeLine
  rw [h2]
  simp

theorem monitorLoop_nil_valid (lines : List String) :
    monitorLoop [] lines = initMonitor := by
  unfold monitorLoop
  induction lines with
  | nil => rfl
  | cons l rest ih =>
    rw [List.foldl_cons, processLine_nil_valid initMonitor l rfl]
    exact ih

theorem execute_completed (valid : List Mod) (lines : List String) :
    (execute_steamcmd_with_monitoring valid lines).completed =
      max ((monitorLoop valid lines).completed_downloads) valid.length := by
  unfold execute_steamcmd_with_monitoring
  by_cases h : (monitorLoop valid lines).completed_downloads < valid.length
  · rw [if_pos h]
    show valid.length = _
    omega
  · rw [if_neg h]
    show (monitorLoop valid lines).completed_downloads = _
    omega

theorem download_completed_formula (mods : List Mod) (lines : List String) :
    (download_mods true mods (some lines)).completed =
      (prefilter mods).2.1.length +
        max ((monitorLoop (prefilter mods).1 lines).completed_downloads)
          ((prefilter mods).1.length) := by
  unfold download_mods
  by_cases hm : mods.isEmpty
  · rw [if_pos hm]
    have hnil : mods = [] := List.isEmpty_iff.mp hm
    subst hnil
    show (0 : Nat) = _
    have h0 : (prefilter ([] : List Mod)).1 = [] := rfl
    rw [h0, monitorLoop_nil_valid]
    rfl
  · rw [if_neg hm]
    simp only [Bool.not_true, Bool.false_eq_true, if_false]
    by_cases hv : (prefilter mods).1.isEmpty
    · rw [if_pos hv]
      have hnil : (prefilter mods).1 = [] := List.isEmpty_iff.mp hv
      show (prefilter mods).2.1.length = _
      rw [hnil, monitorLoop_nil_valid]
      show (prefilter mods).2.1.length = (prefilter mods).2.1.length + max 0 0
      omega
    · rw [if_neg hv]
      show (execute_steamcmd_with_monitoring (prefilter mods).1 lines).completed +
          (prefilter mods).2.1.length = _
      rw [execute_completed]
      omega

/-- A valid one-mod batch entry used in the monitor theorems. -/
def mod123 : Mod :=
  { id := "123", url := "", info := { title := some "M", app_id := some 100 },
    is_dependency := false }

def c1Lines : List String :=
  ["downloading item 123", "Success.", "downloading item 123", "Success."]

/-- C1, claim refuted at a concrete input: for the one-mod batch `[mod123]`
(batch size 1, no pre-filtered entries) the parsed line sequence
`downloading item 123 / Success. / downloading item 123 / Success.` — a
repeated completion for the same mod — drives the returned `completed` to 2,
which differs from the batch size. -/
theorem c1_counterexample :
    (download_mods true [mod123] (some c1Lines)).completed = 2 ∧
    ([mod123] : List Mod).length = 1 ∧
    (download_mods true [mod123] (some c1Lines)).completed ≠
      ([mod123] : List Mod).length := by
  refine ⟨by decide, rfl, by decide⟩

/-- C1 (amended): on every run in which SteamCMD is available and the
subprocess is launched (so no exception path is taken), the returned
`completed` equals the pre-filtered count plus the *maximum* of the loop's
recorded completions and the valid-batch size; hence `completed` never falls
below the batch size — and equals it exactly whenever the parse loop records
at most as many completions as there are valid mods (the launch-failure and
SteamCMD-missing paths instead return `completed` of 0 or the pre-filtered
count). -/
theorem c1_completed_amended : ∀ (mods : List Mod) (lines : List String),
    (download_mods true mods (some lines)).completed =
      (prefilter mods).2.1.length +
        max ((monitorLoop (prefilter mods).1 lines).completed_downloads)
          ((prefilter mods).1.length) ∧
    mods.length ≤ (download_mods true mods (some lines)).completed ∧
    ((monitorLoop (prefilter mods).1 lines).completed_downloads ≤
        (prefilter mods).1.length →
      (download_mods true mods (some lines)).completed = mods.length) := by
  intro mods lines
  have hf := download_completed_formula mods lines
  have hl := prefilter_length mods
  refine ⟨hf, ?_, ?_⟩
  · rw [hf]
    have := Nat.le_max_right
      ((monitorLoop (prefilter mods).1 lines).completed_downloads)
      ((prefilter mods).1.length)
    omega
  · intro hle
    rw [hf, Nat.max_eq_right hle]
    omega

/-- Witness for `c1_completed_amended` at a concrete batch and line list. -/
theorem c1_witness :
    (download_mods true [mod123] (some ["downloading item 123", "Success."])).completed =
      (prefilter [mod123]).2.1.length +
        max ((monitorLoop (prefilter [mod123]).1
            ["downloading item 123", "Success."]).completed_downloads)
          ((prefilter [mod123]).1.length) ∧
    ([mod123] : List Mod).length ≤
      (download_mods true [mod123] (some ["downloading item 123", "Success."])).completed ∧
    ((monitorLoop (prefilter [mod123]).1
          ["downloading item 123", "Success."]).completed_downloads ≤
        (prefilter [mod123]).1.length →
      (download_mods true [mod123]
          (some ["downloading item 123", "Success."])).completed =
        ([mod123] : List Mod).length) :=
  c1_completed_amended [mod123] ["downloading item 123", "Success."]

/-- C8: for the batch containing exactly mod "123" (with a resolved app id),
the lines `downloading item 123` then `Error` yield
`failedIds = ["123"]`, `completed = 1`, `successful = 0`, with the failure
detail recorded for that mod. -/
theorem c8_error_after_start :
    download_mods true [mod123] (some ["downloading item 123", "Error"]) =
      { completed := 1
        successful := 0
        failed_ids := ["123"]
        failed_details := [{ id := "123", title := "M", reason := "Download failed" }] } := by
  decide

/-- C9: an anonymous-slot completion — a success-or-error line arriving with
no bound "current mod" context (and not binding one itself), while fewer
completions than the valid-batch size are recorded — increments both the
completed and the successful counts and leaves `failed_ids` and
`failed_details` untouched, even when the line matched the error pattern. -/
theorem c9_anonymous_slot : ∀ (valid_mods : List Mod) (st : MonitorState)
    (line : String),
    st.current_mod_info = none →
    (bindStart valid_mods st line).current_mod_info = none →
    (successPat line || errorPat line) = true →
    st.completed_downloads < valid_mods.length →
    processLine valid_mods st line =
      { st with completed_downloads := st.completed_downloads + 1,
                successful_downloads := st.successful_downloads + 1 } := by
  intro valid st line h1 h2 h3 h4
  have hb : bindStart valid st line = st := by
    cases hsp : startPat line with
    | none => exact bindStart_none valid st line hsp
    | some did =>
      cases hd : modsDict valid did with
      | none => exact bindStart_miss valid st line did hsp hd
      | some m =>
        rw [bindStart_hit valid st line did m hsp hd] at h2
        simp at h2
  unfold processLine
  rw [hb]
  unfold completeLine
  rw [h1]
  have hc : ((successPat line || errorPat line) &&
      decide (st.completed_downloads < valid.length)) = true := by
    rw [h3, decide_eq_true h4]
    rfl
  rw [if_pos hc]

/-- Witness for `c9_anonymous_slot`: the unattributed line `Error` matches
the error pattern yet is counted as a success. -/
theorem c9_witness :
    errorPat "Error" = true ∧
    processLine [mod123] initMonitor "Error" =
      { initMonitor with completed_downloads := 0 + 1,
                         successful_downloads := 0 + 1 } :=
  ⟨by decide,
   c9_anonymous_slot [mod123] initMonitor "Error" rfl (by decide) (by decide)
     (by decide)⟩

/-! ## `SteamAPI.fetch_mod_info` (steam_api.py lines 14-64)

The two network interactions are injected as data: `ApiOutcome` is the result
of the `requests.post` + `.json()` sequence (an exception, or a parsed
response whose `publishedfiledetails` first entry may be missing), and
`ScrapeOutcome` is the result of the dependency page scrape (an exception
anywhere in the scrape block — all raise points precede the appends — or the
list of scraped ids).  `html.unescape` is passed as an opaque function. -/

/-- The fields read from `details` (a JSON object; absent keys are `none`). -/
structure ApiDetails where
  result : Option Int := none
  title : Option String := none
  consumer_app_id : Option Nat := none
  preview_url : Option String := none
  file_size : Option Nat := none
  description : Option String := none
deriving DecidableEq, Repr

inductive ApiOutcome where
  | requestError (msg : String)
  | otherError (msg : String)
  | ok (details : Option ApiDetails)
deriving DecidableEq, Repr

inductive ScrapeOutcome where
  | scrapeError (msg : String)
  | ok (deps : List String)
deriving DecidableEq, Repr

/-- The dict returned by `fetch_mod_info`: the success dict carries the six
data keys and no `error` key; the failure dicts carry only `title` and
`error`. -/
structure FetchResult where
  title : String
  app_id : Option Nat := none
  preview_url : Option String := none
  file_size : Option Nat := none
  description : Option String := none
  dependencies : Option (List String) := none
  error : Option String := none
deriving DecidableEq, Repr

/-- Rendering of `details.get('result')` inside the failure message. -/
def showResultCode : Option Int → String
  | some n => toString n
  | none => "None"

/-- `SteamAPI.fetch_mod_info`: every exception inside the `try` block is
caught and folded into a result dict with a fallback title, so the function
is total and never propagates an exception. -/
def fetch_mod_info (unescape : String → String) (mod_id : String)
    (api : ApiOutcome) (scrape : ScrapeOutcome) : FetchResult :=
  match api with
  | .requestError e => { title := "Mod " ++ mod_id, error := some ("Network error: " ++ e) }
  | .otherError e => { title := "Mod " ++ mod_id, error := some e }
  | .ok none => { title := "Mod " ++ mod_id, error := some "No details in API response." }
  | .ok (some details) =>
    if details.result ≠ some 1 then
      { title := "Mod " ++ mod_id
        error := some ("API result not OK (result code: " ++
          showResultCode details.result ++ ")") }
    else
      let dependencies : List String :=
        match scrape with
        | .scrapeError _ => []
        | .ok deps => deps
      let description := details.description.getD ""
      let description := if description ≠ "" then unescape description else description
      { title := details.title.getD "Unknown"
        app_id := details.consumer_app_id
        preview_url := some (details.preview_url.getD "")
        file_size := some (details.file_size.getD 0)
        description := some description
        dependencies := some dependencies
        error := none }

/-- Which injected API outcomes the source treats as failures: an exception,
a missing `publishedfiledetails` entry, or a non-1 result code. -/
def apiFailed : ApiOutcome → Bool
  | .requestError _ => true
  | .otherError _ => true
  | .ok none => true
  | .ok (some details) => details.result ≠ some 1

/-- C6: `fetch_mod_info` is total (never raises — every failure is folded
into the returned record), and follows the two-tier policy: an API failure
yields a record with an `error` field and the fallback title `Mod <id>`,
while a dependency-scrape failure on a successful API call is non-fatal,
yielding an empty dependency list and no `error` field. -/
theorem c6_fetch_mod_info_policy :
    ∀ (unescape : String → String) (mod_id : String) (api : ApiOutcome)
      (scrape : ScrapeOutcome),
      (apiFailed api = true →
        (fetch_mod_info unescape mod_id api scrape).error.isSome = true ∧
        (fetch_mod_info unescape mod_id api scrape).title = "Mod " ++ mod_id) ∧
      (apiFailed api = false → ∀ e, scrape = .scrapeError e →
        (fetch_mod_info unescape mod_id api scrape).error = none ∧
        (fetch_mod_info unescape mod_id api scrape).dependencies = some []) := by
  intro unescape mod_id api scrape
  constructor
  · intro hfail
    cases api with
    | requestError e => exact ⟨rfl, rfl⟩
    | otherError e => exact ⟨rfl, rfl⟩
    | ok details =>
      cases details with
      | none => exact ⟨rfl, rfl⟩
      | some d =>
        have hne : d.result ≠ some 1 := by
          have : decide (¬d.result = some 1) = true := hfail
          simpa using this
        constructor <;>
          · simp only [fetch_mod_info]
            rw [if_pos hne]
            try rfl
  · intro hok e hscrape
    cases api with
    | requestError e2 => cases hok
    | otherError e2 => cases hok
    | ok details =>
      cases details with
      | none => cases hok
      | some d =>
        have heq : d.result = some 1 := by
          have : decide (¬d.result = some 1) = false := hok
          simpa using this
        have hne : ¬(d.result ≠ some 1) := fun h => h heq
        subst hscrape
        constructor <;>
          · simp only [fetch_mod_info]
            rw [if_neg hne]
            try rfl

/-- Witness for `c6_fetch_mod_info_policy`: a network error populates
`error` with the fallback title, and a scrape failure after a successful API
call yields no error and an empty dependency list. -/
theorem c6_witness :
    ((fetch_mod_info id "77" (.requestError "down")
        (.ok [])).error.isSome = true ∧
      (fetch_mod_info id "77" (.requestError "down") (.ok [])).title = "Mod 77") ∧
    ((fetch_mod_info id "77" (.ok (some { result := some 1 }))
        (.scrapeError "bad page")).error = none ∧
      (fetch_mod_info id "77" (.ok (some { result := some 1 }))
        (.scrapeError "bad page")).dependencies = some []) :=
  ⟨(c6_fetch_mod_info_policy id "77" (.requestError "down") (.ok [])).1 rfl,
   (c6_fetch_mod_info_policy id "77" (.ok (some { result := some 1 }))
       (.scrapeError "bad page")).2 (by decide) "bad page" rfl⟩

/-! ## Repository read accessors and aliasing (mod_manager.py lines 95-98,
127-130)

Python object semantics are modelled with an explicit heap: mod records
(dicts) and list objects live at addresses; `get_all_mods` performs
`self.mods.copy()` — allocating a *fresh list object* holding the *same
record addresses* (a shallow copy) — while `get_mod_by_id` returns the
stored record object itself.  A caller "mutating" a returned object is a
heap write through its address. -/

abbrev Addr := Nat

structure PyHeap where
  recs : List (Addr × Mod)
  lists : List (Addr × List Addr)
  nextAddr : Addr
deriving DecidableEq, Repr

/-- The manager state: the heap plus the address of the `self.mods` list. -/
structure ManagerState where
  heap : PyHeap
  modsAddr : Addr
deriving DecidableEq, Repr

def lookupRec (h : PyHeap) (a : Addr) : Option Mod :=
  (h.recs.find? (fun p => p.1 == a)).map (fun p => p.2)

def lookupList (h : PyHeap) (a : Addr) : Option (List Addr) :=
  (h.lists.find? (fun p => p.1 == a)).map (fun p => p.2)

/-- The repository's logical content: the records its list refers to. -/
def repoMods (s : ManagerState) : List Mod :=
  ((lookupList s.heap s.modsAddr).getD []).filterMap (lookupRec s.heap)

/-- `ModManager.get_all_mods`: `return self.mods.copy()` — allocate a new
list object with the same element addresses and hand its address out. -/
def get_all_mods (s : ManagerState) : ManagerState × Addr :=
  let elems := (lookupList s.heap s.modsAddr).getD []
  let a := s.heap.nextAddr
  (⟨⟨s.heap.recs, s.heap.lists ++ [(a, elems)], a + 1⟩, s.modsAddr⟩, a)

/-- `ModManager.get_mod_by_id`: `next((m for m in self.mods if m['id'] ==
mod_id), None)` — the first stored record object itself, not a copy. -/
def get_mod_by_id (s : ManagerState) (mod_id : String) : Option Addr :=
  ((lookupList s.heap s.modsAddr).getD []).find? (fun a =>
    match lookupRec s.heap a with
    | some m => m.id == mod_id
    | none => false)

/-- Caller-side in-place mutation of a record object (e.g.
`mod["info"] = ...` on a returned record). -/
def recWrite (s : ManagerState) (a : Addr) (m : Mod) : ManagerState :=
  ⟨⟨s.heap.recs.map (fun p => if p.1 == a then (p.1, m) else p),
    s.heap.lists, s.heap.nextAddr⟩, s.modsAddr⟩

/-- Caller-side in-place mutation of a list object (e.g. `lst.append(x)` on
a returned list). -/
def listAppend (s : ManagerState) (a : Addr) (x : Addr) : ManagerState :=
  ⟨⟨s.heap.recs,
    s.heap.lists.map (fun p => if p.1 == a then (p.1, p.2 ++ [x]) else p),
    s.heap.nextAddr⟩, s.modsAddr⟩

/-- Heap well-formedness: the repository's list is allocated, and every
allocated address is below the allocation counter. -/
def HeapWF (s : ManagerState) : Prop :=
  (lookupList s.heap s.modsAddr).isSome = true ∧
  ∀ p ∈ s.heap.lists, p.1 < s.heap.nextAddr

def exMod7a : Mod := { id := "1", url := "", info := {}, is_dependency := false }

def exMod7b : Mod :=
  { id := "1", url := "", info := { title := some "mutated" }, is_dependency := false }

def ex7State : ManagerState :=
  { heap := { recs := [(0, exMod7a)], lists := [(1, [0])], nextAddr := 2 },
    modsAddr := 1 }

/-- C7, claim refuted at a concrete input: the record returned by
`get_mod_by_id` is the stored record object itself; writing through it
changes the repository's content. -/
theorem c7_counterexample :
    get_mod_by_id ex7State "1" = some 0 ∧
    repoMods ex7State = [exMod7a] ∧
    repoMods (recWrite ex7State 0 exMod7b) = [exMod7b] ∧
    exMod7b ≠ exMod7a := by
  refine ⟨?_, ?_, ?_, ?_⟩ <;> decide

/-- C7 (amended): `get_all_mods` returns a *fresh list object* (so list-level
mutation of the returned list never changes the repository, and the read
itself leaves the repository's content unchanged), but that list's elements
alias the stored record objects — the returned list holds exactly the stored
record addresses — and `get_mod_by_id` returns the stored record itself, so
record-level mutation through either read is shared with the repository. -/
theorem c7_reads_amended : ∀ (s : ManagerState) (x : Addr), HeapWF s →
    (get_all_mods s).2 ≠ s.modsAddr ∧
    repoMods (get_all_mods s).1 = repoMods s ∧
    repoMods (listAppend (get_all_mods s).1 (get_all_mods s).2 x) = repoMods s ∧
    lookupList (get_all_mods s).1.heap (get_all_mods s).2 =
      some ((lookupList s.heap s.modsAddr).getD []) := by
  intro s x hwf
  obtain ⟨hsome, hbound⟩ := hwf
  rcases Option.isSome_iff_exists.mp hsome with ⟨l, hl⟩
  rcases Option.map_eq_some'.mp hl with ⟨p, hp, hpl⟩
  have hpmem : p ∈ s.heap.lists := List.mem_of_find?_eq_some hp
  have hpeq : p.1 = s.modsAddr := by
    have := List.find?_some hp
    simpa using this
  have haddr : s.modsAddr < s.heap.nextAddr := hpeq ▸ hbound p hpmem
  have hkeep : ∀ q ∈ s.heap.lists, (q.1 == s.heap.nextAddr) = false := by
    intro q hq
    have : q.1 ≠ s.heap.nextAddr := Nat.ne_of_lt (hbound q hq)
    simpa using this
  refine ⟨?_, ?_, ?_, ?_⟩
  · show s.heap.nextAddr ≠ s.modsAddr
    exact Nat.ne_of_gt haddr
  · show ((((s.heap.lists ++
        [(s.heap.nextAddr, (lookupList s.heap s.modsAddr).getD [])]).find?
          (fun q => q.1 == s.modsAddr)).map (fun q => q.2)).getD []).filterMap
      (lookupRec s.heap) = repoMods s
    unfold repoMods lookupList
    rw [List.find?_append, hp]
    rfl
  · have hmap : (s.heap.lists ++
        [(s.heap.nextAddr, (lookupList s.heap s.modsAddr).getD [])]).map
          (fun q => if q.1 == s.heap.nextAddr then (q.1, q.2 ++ [x]) else q) =
        s.heap.lists ++
          [(s.heap.nextAddr, (lookupList s.heap s.modsAddr).getD [] ++ [x])] := by
      rw [List.map_append]
      congr 1
      · have hid : ∀ q ∈ s.heap.lists,
            (if q.1 == s.heap.nextAddr then (q.1, q.2 ++ [x]) else q) = q := by
          intro q hq
          rw [hkeep q hq]
          rfl
        calc s.heap.lists.map
              (fun q => if q.1 == s.heap.nextAddr then (q.1, q.2 ++ [x]) else q) =
            s.heap.lists.map id := List.map_congr_left (fun q hq => hid q hq)
          _ = s.heap.lists := List.map_id s.heap.lists
      · simp
    show (((((s.heap.lists ++
        [(s.heap.nextAddr, (lookupList s.heap s.modsAddr).getD [])]).map
          (fun q => if q.1 == s.heap.nextAddr then (q.1, q.2 ++ [x]) else q)).find?
            (fun q => q.1 == s.modsAddr)).map (fun q => q.2)).getD []).filterMap
      (lookupRec s.heap) = repoMods s
    rw [hmap]
    unfold repoMods lookupList
    rw [List.find?_append, hp]
    rfl
  · show ((((s.heap.lists ++
        [(s.heap.nextAddr, (lookupList s.heap s.modsAddr).getD [])]).find?
          (fun q => q.1 == s.heap.nextAddr)).map (fun q => q.2))) =
      some ((lookupList s.heap s.modsAddr).getD [])
    rw [List.find?_append, List.find?_eq_none.mpr
      (fun q hq => by rw [hkeep q hq]; exact Bool.false_ne_true)]
    simp

/-- Witness for `c7_reads_amended` at a concrete one-record repository. -/
theorem c7_witness :
    (get_all_mods ex7State).2 ≠ ex7State.modsAddr ∧
    repoMods (get_all_mods ex7State).1 = repoMods ex7State ∧
    repoMods (listAppend (get_all_mods ex7State).1 (get_all_mods ex7State).2 0) =
      repoMods ex7State ∧
    lookupList (get_all_mods ex7State).1.heap (get_all_mods ex7State).2 =
      some ((lookupList ex7State.heap ex7State.modsAddr).getD []) :=
  c7_reads_amended ex7State 0 ⟨by decide, by decide⟩

end SWD
